import Mathlib

/-!
Verification of the dipboy order parser (src/parser/mod.rs and
src/parser/combinators.rs).  Strings are embedded as `List Char`; all order
text in the repository is ASCII, for which Rust byte indices coincide with
character indices, Rust `char::is_alphabetic` coincides with `Char.isAlpha`,
and Rust `char::is_whitespace` coincides with `Char.isWhitespace`.
Rust `Result<T, E>` is embedded as `Except E T`; the uninhabited Rust error
type `!` is embedded as the empty type `NeverT`.
-/

namespace Dipboy

/-- Decidable equality for `Except`, used to evaluate parser results on
concrete inputs. -/
instance instDecEqExcept {ε α : Type} [DecidableEq ε] [DecidableEq α] :
    DecidableEq (Except ε α) := fun a b =>
  match a, b with
  | .error x, .error y =>
    if h : x = y then isTrue (congrArg Except.error h)
    else isFalse (fun hh => h (Except.error.inj hh))
  | .ok x, .ok y =>
    if h : x = y then isTrue (congrArg Except.ok h)
    else isFalse (fun hh => h (Except.ok.inj hh))
  | .error _, .ok _ => isFalse (fun hh => Except.noConfusion hh)
  | .ok _, .error _ => isFalse (fun hh => Except.noConfusion hh)

/-- The uninhabited Rust error type `!`. -/
inductive NeverT : Type

/-- Rust `s.starts_with(tag)` on string slices (prefix comparison). -/
def startsWith (s tag : List Char) : Bool := List.isPrefixOf tag s

/-- Rust `str::trim_start` (drop leading whitespace). -/
def trimStart (s : List Char) : List Char := s.dropWhile Char.isWhitespace

/-- Rust `s.starts_with(char::is_whitespace)`. -/
def headIsWhitespace : List Char → Bool
  | [] => false
  | c :: _ => c.isWhitespace

/-- The unit enum from mod.rs (Rust name `Unit`, renamed because `Unit` is a
core Lean type). -/
inductive UnitKind : Type
  | army
  | fleet
deriving DecidableEq, Repr

/-- Registered instance keeping instance search shallow on the support and
convoy result tuples. -/
instance instDecEqOrderTuple :
    DecidableEq (Option UnitKind × List Char × Option UnitKind × List Char × List Char) :=
  inferInstance

/-- mod.rs `parse_unit`: recognize a leading unit token `army`/`fleet`/`a`/`f`
(in that order) and return it with the rest of the input; otherwise fail
returning the input. -/
def parse_unit (order_str : List Char) : Except (List Char) (UnitKind × List Char) :=
  if startsWith order_str ("army".toList) then .ok (.army, order_str.drop 4)
  else if startsWith order_str ("fleet".toList) then .ok (.fleet, order_str.drop 5)
  else if startsWith order_str ("a".toList) then .ok (.army, order_str.drop 1)
  else if startsWith order_str ("f".toList) then .ok (.fleet, order_str.drop 1)
  else .error order_str

/-- mod.rs `optional`: wrap a parser so that failure becomes a successful
absent result; the error type is the uninhabited `!` (here `NeverT`). -/
def optional {α : Type} (parser : List Char → Except (List Char) (α × List Char))
    (s : List Char) : Except NeverT (Option α × List Char) :=
  match parser s with
  | .ok (val, rem) => .ok (some val, rem)
  | .error rem => .ok (none, rem)

/-- mod.rs `skip_whitespace`: always succeeds, trimming leading whitespace. -/
def skip_whitespace (order_str : List Char) : Except NeverT (List Char) :=
  .ok (trimStart order_str)

/-- mod.rs `require_whitespace`: require at least one leading whitespace
character, then trim; otherwise fail with the input. -/
def require_whitespace (order_str : List Char) : Except (List Char) (List Char) :=
  if headIsWhitespace order_str then .ok (trimStart order_str)
  else .error order_str

/-- Rust `.unwrap()` on a `Result` whose error type is uninhabited: total,
can never panic. -/
def unwrapE {α : Type} : Except NeverT α → α
  | .ok a => a
  | .error e => nomatch e

/-- A character that may appear in a province name: alphabetic, `.`, `(`
or `)` (the condition tested in `ParseProvince::next`). -/
def nameChar (c : Char) : Bool := c.isAlpha || c == '.' || c == '(' || c == ')'

/-- Index of the first list element satisfying `p`, or `none`
(the search performed by the `while let` loops in `ParseProvince::next`). -/
def firstIdx (p : Char → Bool) : List Char → Option Nat
  | [] => none
  | c :: cs => if p c then some 0 else (firstIdx p cs).map (· + 1)

/-- One call of `ParseProvince::next`.  The iterator state is the position
`pos` of the underlying `CharIndices` iterator inside the full string `s`
(number of characters already consumed).  If the iterator is exhausted
(`peek() == None`) the result is `none`.  Otherwise the first loop consumes
characters up to and including the first name character, the second loop
consumes name characters until a non-name character at absolute index `j`
is consumed, yielding `s.split_at(j)`; if the input ends first, the final
candidate `(s, "")` is yielded. -/
def nextFrom (s : List Char) (p1 : Nat) :
    Option ((List Char × List Char) × Nat) :=
  match firstIdx (fun c => !(nameChar c)) (s.drop p1) with
  | some k => some ((s.take (p1 + k), s.drop (p1 + k)), p1 + k + 1)
  | none => some ((s, []), s.length)

/-- The two phases of one `ParseProvince::next` call: the first loop leaves
the iterator just after the first name character (position `p1`), then
`nextFrom` performs the second loop from there. -/
def nextCandidate (s : List Char) (pos : Nat) :
    Option ((List Char × List Char) × Nat) :=
  if s.length ≤ pos then none
  else
    nextFrom s (match firstIdx nameChar (s.drop pos) with
      | some k => pos + k + 1
      | none => s.length)

/-- Repeated calls of `ParseProvince::next` from position `pos`, collecting
every yielded candidate.  `fuel` bounds the number of calls; positions
strictly increase and are bounded by `s.length`, so `s.length + 1` calls
always exhaust the iterator. -/
def provinceAux (s : List Char) : Nat → Nat → List (List Char × List Char)
  | _, 0 => []
  | pos, fuel + 1 =>
    match nextCandidate s pos with
    | none => []
    | some (cand, next_pos) => cand :: provinceAux s next_pos fuel

/-- mod.rs `parse_province`: the full (finite) sequence of candidates yielded
by the `ParseProvince` iterator on `order_str`. -/
def parse_province (order_str : List Char) : List (List Char × List Char) :=
  provinceAux order_str 0 (order_str.length + 1)

/-- mod.rs `parse_hold`: keyword `holds` / `hold` / `h`, longest first. -/
def parse_hold (order_str : List Char) : Except (List Char) (Unit × List Char) :=
  if startsWith order_str ("holds".toList) then .ok ((), order_str.drop 5)
  else if startsWith order_str ("hold".toList) then .ok ((), order_str.drop 4)
  else if startsWith order_str ("h".toList) then .ok ((), order_str.drop 1)
  else .error order_str

/-- mod.rs `expect_eol`: succeed exactly on empty remaining input. -/
def expect_eol (order_str : List Char) : Except (List Char) Unit :=
  if order_str.length = 0 then .ok () else .error order_str

/-- The `for (province, remainder) in parse_province(...)` loop of
`parse_hold_order`, with `orig` the original full input (returned on
failure) and `unit` the already-parsed optional unit.  Note the early
`return Err(order_str)` when `require_whitespace` fails on a candidate. -/
def holdLoop (orig : List Char) (unit : Option UnitKind) :
    List (List Char × List Char) →
      Except (List Char) ((Option UnitKind × List Char) × List Char)
  | [] => .error orig
  | (province, remainder) :: rest =>
    match require_whitespace remainder with
    | .error _ => .error orig
    | .ok rem1 =>
      match parse_hold rem1 with
      | .ok (_, rem) =>
        match expect_eol rem with
        | .ok _ => .ok ((unit, province), rem)
        | .error _ => holdLoop orig unit rest
      | .error _ => holdLoop orig unit rest

/-- mod.rs `parse_hold_order`. -/
def parse_hold_order (order_str : List Char) :
    Except (List Char) ((Option UnitKind × List Char) × List Char) :=
  let ur := unwrapE (optional parse_unit order_str)
  let rem1 := unwrapE (skip_whitespace ur.2)
  holdLoop order_str ur.1 (parse_province rem1)

/-- mod.rs `parse_to`: separator `-` or `to`. -/
def parse_to (order_str : List Char) : Except (List Char) (Unit × List Char) :=
  if startsWith order_str ("-".toList) then .ok ((), order_str.drop 1)
  else if startsWith order_str ("to".toList) then .ok ((), order_str.drop 2)
  else .error order_str

/-- The inner destination loop of `parse_move_order`: first destination
candidate whose remainder is end-of-input. -/
def moveDest : List (List Char × List Char) → Option (List Char)
  | [] => none
  | (dest, remainder) :: rest =>
    match expect_eol remainder with
    | .ok _ => some dest
    | .error _ => moveDest rest

/-- The outer source loop of `parse_move_order`. -/
def moveLoop (orig : List Char) (unit : Option UnitKind) :
    List (List Char × List Char) →
      Except (List Char) ((Option UnitKind × List Char × List Char) × List Char)
  | [] => .error orig
  | (source, remainder) :: rest =>
    let remainder1 := unwrapE (skip_whitespace remainder)
    match parse_to remainder1 with
    | .ok (_, rem) =>
      let rem2 := unwrapE (skip_whitespace rem)
      match moveDest (parse_province rem2) with
      | some dest => .ok ((unit, source, dest), [])
      | none => moveLoop orig unit rest
    | .error _ => moveLoop orig unit rest

/-- mod.rs `parse_move_order`.  A recognized unit token must be followed by
whitespace or the whole rule fails; an unrecognized unit prefix falls back
to trimming whitespace. -/
def parse_move_order (order_str : List Char) :
    Except (List Char) ((Option UnitKind × List Char × List Char) × List Char) :=
  match parse_unit order_str with
  | .ok (u, remainder) =>
    match require_whitespace remainder with
    | .ok rem => moveLoop order_str (some u) (parse_province rem)
    | .error _ => .error order_str
  | .error _ =>
    moveLoop order_str none (parse_province (unwrapE (skip_whitespace order_str)))

/-- mod.rs `parse_support`: keyword `supports` / `support` / `s`. -/
def parse_support (order_str : List Char) : Except (List Char) (Unit × List Char) :=
  if startsWith order_str ("supports".toList) then .ok ((), order_str.drop 8)
  else if startsWith order_str ("support".toList) then .ok ((), order_str.drop 7)
  else if startsWith order_str ("s".toList) then .ok ((), order_str.drop 1)
  else .error order_str

/-- The province loop of `parse_support_order`: after the keyword, delegate
to `parse_move_order`, and if that fails, to `parse_hold_order`; a supported
hold is returned with source equal to destination. -/
def supLoop (orig : List Char) (unit : Option UnitKind) :
    List (List Char × List Char) →
      Except (List Char)
        ((Option UnitKind × List Char × Option UnitKind × List Char × List Char) × List Char)
  | [] => .error orig
  | (prov, remainder) :: rest =>
    let remainder1 := unwrapE (skip_whitespace remainder)
    match parse_support remainder1 with
    | .ok (_, rem) =>
      let rem2 := unwrapE (skip_whitespace rem)
      match parse_move_order rem2 with
      | .ok ((unit2, source, dest), rem) => .ok ((unit, prov, unit2, source, dest), rem)
      | .error _ =>
        match parse_hold_order rem2 with
        | .ok ((unit2, source), rem) => .ok ((unit, prov, unit2, source, source), rem)
        | .error _ => supLoop orig unit rest
    | .error _ => supLoop orig unit rest

/-- mod.rs `parse_support_order`. -/
def parse_support_order (order_str : List Char) :
    Except (List Char)
      ((Option UnitKind × List Char × Option UnitKind × List Char × List Char) × List Char) :=
  match parse_unit order_str with
  | .ok (u, remainder) =>
    match require_whitespace remainder with
    | .ok rem => supLoop order_str (some u) (parse_province rem)
    | .error _ => .error order_str
  | .error _ =>
    supLoop order_str none (parse_province (unwrapE (skip_whitespace order_str)))

/-- mod.rs `parse_convoy`: keyword `convoys` / `convoy` / `c`. -/
def parse_convoy (order_str : List Char) : Except (List Char) (Unit × List Char) :=
  if startsWith order_str ("convoys".toList) then .ok ((), order_str.drop 7)
  else if startsWith order_str ("convoy".toList) then .ok ((), order_str.drop 6)
  else if startsWith order_str ("c".toList) then .ok ((), order_str.drop 1)
  else .error order_str

/-- The province loop of `parse_convoy_order`: after the keyword, delegate
only to `parse_move_order` (never to `parse_hold_order`). -/
def convoyLoop (orig : List Char) (unit : Option UnitKind) :
    List (List Char × List Char) →
      Except (List Char)
        ((Option UnitKind × List Char × Option UnitKind × List Char × List Char) × List Char)
  | [] => .error orig
  | (prov, remainder) :: rest =>
    let remainder1 := unwrapE (skip_whitespace remainder)
    match parse_convoy remainder1 with
    | .ok (_, rem) =>
      let rem2 := unwrapE (skip_whitespace rem)
      match parse_move_order rem2 with
      | .ok ((unit2, source, dest), rem) => .ok ((unit, prov, unit2, source, dest), rem)
      | .error _ => convoyLoop orig unit rest
    | .error _ => convoyLoop orig unit rest

/-- mod.rs `parse_convoy_order`. -/
def parse_convoy_order (order_str : List Char) :
    Except (List Char)
      ((Option UnitKind × List Char × Option UnitKind × List Char × List Char) × List Char) :=
  match parse_unit order_str with
  | .ok (u, remainder) =>
    match require_whitespace remainder with
    | .ok rem => convoyLoop order_str (some u) (parse_province rem)
    | .error _ => .error order_str
  | .error _ =>
    convoyLoop order_str none (parse_province (unwrapE (skip_whitespace order_str)))

/-!
Embedding of combinators.rs.  A parser there maps an input span to a lazy
iterator over (value, remaining-span) pairs; since every such iterator is
finite, its denotation is the list of all results it yields, in order.
The helper `Run` functions below transcribe the `next` state machines:
each equation corresponds to one branch of the Rust `next` method, and
list `cons` corresponds to yielding one result.
-/

/-- A combinators.rs parser, denoted by the list of results its iterator
yields on a given input. -/
def ParserF (α : Type) : Type := List Char → List (α × List Char)

/-- combinators.rs `Tag` / `TagParse`: at most one result, exactly when the
input starts with the tag; the result is the tag and the input minus the
tag-length prefix. -/
def tagP (tag : List Char) : ParserF (List Char) := fun s =>
  if startsWith s tag then [(tag, s.drop tag.length)] else []

/-- combinators.rs `OptionalParse::next`: while the inner iterator yields,
wrap its results in `some`; when it is exhausted, yield `(none, s)` once
(with `s` the original input) and stop. -/
def optionalRun {α : Type} (s : List Char) :
    List (α × List Char) → List (Option α × List Char)
  | [] => [(none, s)]
  | (v, rem) :: rest => (some v, rem) :: optionalRun s rest

/-- combinators.rs `optional` combinator. -/
def optionalP {α : Type} (p : ParserF α) : ParserF (Option α) := fun s =>
  optionalRun s (p s)

/-- combinators.rs `EitherParse::next`: exhaust the left iterator yielding
`inl`-tagged results, then the right iterator yielding `inr`-tagged
results.  `types::Either` (src/parser/types.rs is not in the repository
snapshot) is modelled from the spec as a left/right tagged sum. -/
def eitherRun {α β : Type} :
    List (α × List Char) → List (β × List Char) → List ((α ⊕ β) × List Char)
  | (v, rem) :: rest, right => (Sum.inl v, rem) :: eitherRun rest right
  | [], (v, rem) :: rest => (Sum.inr v, rem) :: eitherRun ([] : List (α × List Char)) rest
  | [], [] => []

/-- combinators.rs `either` combinator: both sides parse the same input. -/
def eitherP {α β : Type} (p : ParserF α) (q : ParserF β) : ParserF (α ⊕ β) := fun s =>
  eitherRun (p s) (q s)

/-- The inner phase of `ChainParse::next`: while the current second-parser
iterator yields, pair its results with the saved first result. -/
def chainEmit {α β : Type} (fr : α) :
    List (β × List Char) → List ((α × β) × List Char)
  | [] => []
  | (sv, rem) :: srest => ((fr, sv), rem) :: chainEmit fr srest

/-- The outer phase of `ChainParse::next`: advance the first-parser iterator;
for each of its results `(fr, rem)`, run the second parser on `rem` (this is
the only place the second parser is invoked) and emit its results paired
with `fr`, then continue with the rest of the first iterator. -/
def chainRun {α β : Type} (second : ParserF β) :
    List (α × List Char) → List ((α × β) × List Char)
  | [] => []
  | (fr, rem) :: frest => chainEmit fr (second rem) ++ chainRun second frest

/-- combinators.rs `chain` combinator. -/
def chainP {α β : Type} (p : ParserF α) (q : ParserF β) : ParserF (α × β) := fun s =>
  chainRun q (p s)

/-- Whether a single province candidate remainder leads `parse_hold_order`
to a complete parse: required whitespace, then a hold keyword, then end of
input.  Used to state which candidate the hold-rule search accepts. -/
def holdFull (remainder : List Char) : Bool :=
  headIsWhitespace remainder &&
    (match parse_hold (trimStart remainder) with
     | .ok (_, rem) => rem.isEmpty
     | .error _ => false)

/-- The unit and trimmed remaining input with which `parse_hold_order`
enters its candidate loop (lines 156 to 158 of mod.rs). -/
def holdInput (s : List Char) : Option UnitKind × List Char :=
  ((unwrapE (optional parse_unit s)).1, trimStart (unwrapE (optional parse_unit s)).2)

/-!  Helper lemmas. -/

theorem firstIdx_some_lt {p : Char → Bool} :
    ∀ {l : List Char} {k : Nat}, firstIdx p l = some k → k < l.length := by
  intro l
  induction l with
  | nil => intro k h; cases h
  | cons c cs ih =>
    intro k h
    simp only [firstIdx] at h
    by_cases hp : p c
    · rw [if_pos hp] at h
      cases h
      simp
    · rw [if_neg hp] at h
      obtain ⟨k', hk', rfl⟩ := Option.map_eq_some'.mp h
      have := ih hk'
      simp only [List.length_cons]
      omega

theorem firstIdx_none_of_all {p : Char → Bool} :
    ∀ {l : List Char}, (∀ c ∈ l, p c = false) → firstIdx p l = none := by
  intro l
  induction l with
  | nil => intro _; rfl
  | cons c cs ih =>
    intro hall
    have hc : p c = false := hall c (List.mem_cons_self c cs)
    simp only [firstIdx, hc, if_neg Bool.false_ne_true]
    rw [ih (fun d hd => hall d (List.mem_cons_of_mem c hd))]
    rfl

theorem nextFrom_elim {s : List Char} {p1 : Nat} {n r : List Char} {pos' : Nat}
    (hp : p1 ≤ s.length) (h : nextFrom s p1 = some ((n, r), pos')) :
    ∃ j, p1 ≤ j ∧ j ≤ s.length ∧ n = s.take j ∧ r = s.drop j ∧
      ((j < s.length ∧ pos' = j + 1) ∨ (j = s.length ∧ pos' = s.length)) := by
  unfold nextFrom at h
  cases hfi : firstIdx (fun c => !(nameChar c)) (s.drop p1) with
  | some k =>
    rw [hfi] at h
    have hk := firstIdx_some_lt hfi
    rw [List.length_drop] at hk
    have hj : p1 + k < s.length := by omega
    simp only [Option.some.injEq, Prod.mk.injEq] at h
    obtain ⟨⟨hn, hr⟩, hpos⟩ := h
    exact ⟨p1 + k, by omega, by omega, hn.symm, hr.symm, Or.inl ⟨hj, hpos.symm⟩⟩
  | none =>
    rw [hfi] at h
    simp only [Option.some.injEq, Prod.mk.injEq] at h
    obtain ⟨⟨hn, hr⟩, hpos⟩ := h
    refine ⟨s.length, hp, le_refl _, ?_, ?_, Or.inr ⟨rfl, hpos.symm⟩⟩
    · rw [List.take_length]; exact hn.symm
    · rw [List.drop_length]; exact hr.symm

theorem nextCandidate_elim {s : List Char} {pos : Nat} {n r : List Char} {pos' : Nat}
    (h : nextCandidate s pos = some ((n, r), pos')) :
    pos < s.length ∧ ∃ j, pos ≤ j ∧ j ≤ s.length ∧ n = s.take j ∧ r = s.drop j ∧
      ((j < s.length ∧ pos' = j + 1) ∨ (j = s.length ∧ pos' = s.length)) := by
  unfold nextCandidate at h
  by_cases hle : s.length ≤ pos
  · rw [if_pos hle] at h; cases h
  · rw [if_neg hle] at h
    have hlt : pos < s.length := by omega
    refine ⟨hlt, ?_⟩
    cases hfi : firstIdx nameChar (s.drop pos) with
    | some k =>
      rw [hfi] at h
      have hk := firstIdx_some_lt hfi
      rw [List.length_drop] at hk
      obtain ⟨j, hj1, hj2, hn, hr, hcase⟩ := @nextFrom_elim s (pos + k + 1) n r pos' (by omega) h
      exact ⟨j, by omega, hj2, hn, hr, hcase⟩
    | none =>
      rw [hfi] at h
      obtain ⟨j, hj1, hj2, hn, hr, hcase⟩ := @nextFrom_elim s s.length n r pos' (le_refl _) h
      exact ⟨j, by omega, hj2, hn, hr, hcase⟩

theorem nextCandidate_end {s : List Char} {pos : Nat} (h : s.length ≤ pos) :
    nextCandidate s pos = none := by
  unfold nextCandidate
  rw [if_pos h]

theorem provinceAux_end {s : List Char} {pos : Nat} (h : s.length ≤ pos) :
    ∀ fuel, provinceAux s pos fuel = [] := by
  intro fuel
  cases fuel with
  | zero => rfl
  | succ fuel => simp [provinceAux, nextCandidate_end h]

theorem provinceAux_mem {s : List Char} :
    ∀ {fuel pos : Nat} {c : List Char × List Char}, c ∈ provinceAux s pos fuel →
      pos ≤ c.1.length ∧ c.1 ++ c.2 = s ∧ c.2 <:+ s := by
  intro fuel
  induction fuel with
  | zero => intro pos c h; cases h
  | succ fuel ih =>
    intro pos c h
    simp only [provinceAux] at h
    cases hnc : nextCandidate s pos with
    | none => rw [hnc] at h; cases h
    | some cand =>
      obtain ⟨⟨n, r⟩, pos'⟩ := cand
      rw [hnc] at h
      obtain ⟨hlt, j, hj1, hj2, rfl, rfl, hcase⟩ := nextCandidate_elim hnc
      rcases List.mem_cons.mp h with rfl | hmem
      · refine ⟨?_, List.take_append_drop j s, List.drop_suffix j s⟩
        simp only [List.length_take]
        omega
      · have := ih hmem
        have hpos : pos ≤ pos' := by rcases hcase with ⟨_, rfl⟩ | ⟨rfl, rfl⟩ <;> omega
        exact ⟨by omega, this.2⟩

theorem provinceAux_pairwise (s : List Char) :
    ∀ (fuel pos : Nat),
      (provinceAux s pos fuel).Pairwise (fun a b => a.1.length < b.1.length) := by
  intro fuel
  induction fuel with
  | zero => intro pos; exact List.Pairwise.nil
  | succ fuel ih =>
    intro pos
    simp only [provinceAux]
    cases hnc : nextCandidate s pos with
    | none => exact List.Pairwise.nil
    | some cand =>
      obtain ⟨⟨n, r⟩, pos'⟩ := cand
      obtain ⟨hlt, j, hj1, hj2, rfl, rfl, hcase⟩ := nextCandidate_elim hnc
      refine List.Pairwise.cons ?_ (ih pos')
      intro b hb
      rcases hcase with ⟨hjlt, rfl⟩ | ⟨rfl, rfl⟩
      · have := provinceAux_mem hb
        simp only [List.length_take]
        omega
      · rw [provinceAux_end (le_refl _)] at hb
        cases hb

theorem expect_eol_ok {s : List Char} {v : Unit} (h : expect_eol s = .ok v) : s = [] := by
  unfold expect_eol at h
  split at h
  · exact List.length_eq_zero.mp (by assumption)
  · cases h

theorem require_whitespace_error {s e : List Char}
    (h : require_whitespace s = .error e) : e = s ∧ headIsWhitespace s = false := by
  unfold require_whitespace at h
  split at h
  · cases h
  · exact ⟨(Except.error.inj h).symm, by simpa using (by assumption : ¬ headIsWhitespace s = true)⟩

theorem require_whitespace_of_head {s : List Char} (h : headIsWhitespace s = true) :
    require_whitespace s = .ok (trimStart s) := by
  unfold require_whitespace
  rw [if_pos h]

theorem holdLoop_error {orig : List Char} {u : Option UnitKind} :
    ∀ {l : List (List Char × List Char)} {e}, holdLoop orig u l = .error e → e = orig := by
  intro l
  induction l with
  | nil => intro e h; exact (Except.error.inj h).symm
  | cons hd tl ih =>
    intro e h
    obtain ⟨province, remainder⟩ := hd
    simp only [holdLoop] at h
    split at h
    · exact (Except.error.inj h).symm
    · split at h
      · split at h
        · cases h
        · exact ih h
      · exact ih h

theorem holdLoop_ok {orig : List Char} {u : Option UnitKind} :
    ∀ {l : List (List Char × List Char)} {x rem},
      holdLoop orig u l = .ok (x, rem) → rem = [] ∧ x.1 = u := by
  intro l
  induction l with
  | nil => intro x rem h; cases h
  | cons hd tl ih =>
    intro x rem h
    obtain ⟨province, remainder⟩ := hd
    simp only [holdLoop] at h
    split at h
    · cases h
    · split at h
      · split at h
        · cases h
          exact ⟨expect_eol_ok (by assumption), rfl⟩
        · exact ih h
      · exact ih h

theorem parse_hold_order_eq (s : List Char) :
    parse_hold_order s = holdLoop s (holdInput s).1 (parse_province (holdInput s).2) := rfl

theorem parse_hold_order_error {s e : List Char}
    (h : parse_hold_order s = .error e) : e = s := by
  rw [parse_hold_order_eq] at h
  exact holdLoop_error h

theorem parse_hold_order_ok {s : List Char} {x rem}
    (h : parse_hold_order s = .ok (x, rem)) : rem = [] := by
  rw [parse_hold_order_eq] at h
  exact (holdLoop_ok h).1

theorem moveLoop_error {orig : List Char} {u : Option UnitKind} :
    ∀ {l : List (List Char × List Char)} {e}, moveLoop orig u l = .error e → e = orig := by
  intro l
  induction l with
  | nil => intro e h; exact (Except.error.inj h).symm
  | cons hd tl ih =>
    intro e h
    obtain ⟨source, remainder⟩ := hd
    simp only [moveLoop] at h
    split at h
    · split at h
      · cases h
      · exact ih h
    · exact ih h

theorem moveLoop_ok {orig : List Char} {u : Option UnitKind} :
    ∀ {l : List (List Char × List Char)} {x rem},
      moveLoop orig u l = .ok (x, rem) → rem = [] ∧ x.1 = u := by
  intro l
  induction l with
  | nil => intro x rem h; cases h
  | cons hd tl ih =>
    intro x rem h
    obtain ⟨source, remainder⟩ := hd
    simp only [moveLoop] at h
    split at h
    · split at h
      · cases h
        exact ⟨rfl, rfl⟩
      · exact ih h
    · exact ih h

theorem parse_move_order_error {s e : List Char}
    (h : parse_move_order s = .error e) : e = s := by
  unfold parse_move_order at h
  split at h
  · split at h
    · exact moveLoop_error h
    · exact (Except.error.inj h).symm
  · exact moveLoop_error h

theorem parse_move_order_ok {s : List Char} {x rem}
    (h : parse_move_order s = .ok (x, rem)) : rem = [] := by
  unfold parse_move_order at h
  split at h
  · split at h
    · exact (moveLoop_ok h).1
    · cases h
  · exact (moveLoop_ok h).1

theorem supLoop_error {orig : List Char} {u : Option UnitKind} :
    ∀ {l : List (List Char × List Char)} {e}, supLoop orig u l = .error e → e = orig := by
  intro l
  induction l with
  | nil => intro e h; exact (Except.error.inj h).symm
  | cons hd tl ih =>
    intro e h
    obtain ⟨prov, remainder⟩ := hd
    simp only [supLoop] at h
    split at h
    · split at h
      · cases h
      · split at h
        · cases h
        · exact ih h
    · exact ih h

theorem supLoop_ok {orig : List Char} {u : Option UnitKind} :
    ∀ {l : List (List Char × List Char)} {x rem},
      supLoop orig u l = .ok (x, rem) → rem = [] ∧ x.1 = u := by
  intro l
  induction l with
  | nil => intro x rem h; cases h
  | cons hd tl ih =>
    intro x rem h
    obtain ⟨prov, remainder⟩ := hd
    simp only [supLoop] at h
    split at h
    · split at h
      · cases h
        exact ⟨parse_move_order_ok (by assumption), rfl⟩
      · split at h
        · cases h
          exact ⟨parse_hold_order_ok (by assumption), rfl⟩
        · exact ih h
    · exact ih h

theorem parse_support_order_error {s e : List Char}
    (h : parse_support_order s = .error e) : e = s := by
  unfold parse_support_order at h
  split at h
  · split at h
    · exact supLoop_error h
    · exact (Except.error.inj h).symm
  · exact supLoop_error h

theorem parse_support_order_ok {s : List Char} {x rem}
    (h : parse_support_order s = .ok (x, rem)) : rem = [] := by
  unfold parse_support_order at h
  split at h
  · split at h
    · exact (supLoop_ok h).1
    · cases h
  · exact (supLoop_ok h).1

theorem convoyLoop_error {orig : List Char} {u : Option UnitKind} :
    ∀ {l : List (List Char × List Char)} {e}, convoyLoop orig u l = .error e → e = orig := by
  intro l
  induction l with
  | nil => intro e h; exact (Except.error.inj h).symm
  | cons hd tl ih =>
    intro e h
    obtain ⟨prov, remainder⟩ := hd
    simp only [convoyLoop] at h
    split at h
    · split at h
      · cases h
      · exact ih h
    · exact ih h

theorem convoyLoop_ok {orig : List Char} {u : Option UnitKind} :
    ∀ {l : List (List Char × List Char)} {x rem},
      convoyLoop orig u l = .ok (x, rem) → rem = [] ∧ x.1 = u := by
  intro l
  induction l with
  | nil => intro x rem h; cases h
  | cons hd tl ih =>
    intro x rem h
    obtain ⟨prov, remainder⟩ := hd
    simp only [convoyLoop] at h
    split at h
    · split at h
      · cases h
        exact ⟨parse_move_order_ok (by assumption), rfl⟩
      · exact ih h
    · exact ih h

theorem parse_convoy_order_error {s e : List Char}
    (h : parse_convoy_order s = .error e) : e = s := by
  unfold parse_convoy_order at h
  split at h
  · split at h
    · exact convoyLoop_error h
    · exact (Except.error.inj h).symm
  · exact convoyLoop_error h

theorem parse_convoy_order_ok {s : List Char} {x rem}
    (h : parse_convoy_order s = .ok (x, rem)) : rem = [] := by
  unfold parse_convoy_order at h
  split at h
  · split at h
    · exact (convoyLoop_ok h).1
    · cases h
  · exact (convoyLoop_ok h).1

theorem holdFull_elim {remainder : List Char} (h : holdFull remainder = true) :
    headIsWhitespace remainder = true ∧
      parse_hold (trimStart remainder) = .ok ((), []) := by
  simp only [holdFull, Bool.and_eq_true] at h
  obtain ⟨hw, h⟩ := h
  refine ⟨hw, ?_⟩
  cases hph : parse_hold (trimStart remainder) with
  | error e => simp [hph] at h
  | ok vr =>
    obtain ⟨v, rem⟩ := vr
    simp only [hph, List.isEmpty_iff] at h
    rw [h]

theorem holdFull_of_parts {remainder : List Char}
    (hw : headIsWhitespace remainder = true)
    (hh : parse_hold (trimStart remainder) = .ok ((), [])) :
    holdFull remainder = true := by
  simp only [holdFull, hw, hh, Bool.true_and, List.isEmpty_nil]

theorem holdLoop_step_not_full {orig : List Char} {u : Option UnitKind}
    {q : List Char × List Char} {tl : List (List Char × List Char)}
    (hw : headIsWhitespace q.2 = true) (hf : holdFull q.2 = false) :
    holdLoop orig u (q :: tl) = holdLoop orig u tl := by
  obtain ⟨province, remainder⟩ := q
  simp only at hw hf
  simp only [holdFull, hw, Bool.true_and] at hf
  cases hph : parse_hold (trimStart remainder) with
  | error e =>
    simp only [holdLoop, require_whitespace_of_head hw, hph]
  | ok vr =>
    obtain ⟨v, rem⟩ := vr
    simp only [hph] at hf
    have heol : expect_eol rem = .error rem := by
      unfold expect_eol
      rw [if_neg]
      intro hlen
      rw [List.length_eq_zero.mp hlen] at hf
      simp at hf
    simp only [holdLoop, require_whitespace_of_head hw, hph, heol]

theorem holdLoop_first_success {orig : List Char} {u : Option UnitKind} :
    ∀ {l₁ : List (List Char × List Char)} {pr : List Char × List Char}
      {l₂ : List (List Char × List Char)},
      (∀ q ∈ l₁, headIsWhitespace q.2 = true ∧ holdFull q.2 = false) →
      holdFull pr.2 = true →
      holdLoop orig u (l₁ ++ pr :: l₂) = .ok ((u, pr.1), []) := by
  intro l₁
  induction l₁ with
  | nil =>
    intro pr l₂ _ hfull
    obtain ⟨province, remainder⟩ := pr
    obtain ⟨hw, hh⟩ := holdFull_elim hfull
    simp only [List.nil_append, holdLoop, require_whitespace_of_head hw, hh]
    rfl
  | cons q tl ih =>
    intro pr l₂ hall hfull
    obtain ⟨hw, hf⟩ := hall q (List.mem_cons_self q tl)
    rw [List.cons_append, holdLoop_step_not_full hw hf]
    exact ih (fun q' hq' => hall q' (List.mem_cons_of_mem q hq')) hfull

theorem holdLoop_abort {orig : List Char} {u : Option UnitKind} :
    ∀ {l₁ : List (List Char × List Char)} {pr : List Char × List Char}
      {l₂ : List (List Char × List Char)},
      (∀ q ∈ l₁, holdFull q.2 = false) →
      headIsWhitespace pr.2 = false →
      holdLoop orig u (l₁ ++ pr :: l₂) = .error orig := by
  intro l₁
  induction l₁ with
  | nil =>
    intro pr l₂ _ hw
    obtain ⟨province, remainder⟩ := pr
    simp only at hw
    simp only [List.nil_append, holdLoop]
    unfold require_whitespace
    rw [if_neg (by simp [hw])]
  | cons q tl ih =>
    intro pr l₂ hall hw
    by_cases hqw : headIsWhitespace q.2 = true
    · rw [List.cons_append,
        holdLoop_step_not_full hqw (hall q (List.mem_cons_self q tl))]
      exact ih (fun q' hq' => hall q' (List.mem_cons_of_mem q hq')) hw
    · obtain ⟨province, remainder⟩ := q
      simp only [List.cons_append, holdLoop]
      unfold require_whitespace
      rw [if_neg hqw]

theorem holdLoop_exhaust {orig : List Char} {u : Option UnitKind} :
    ∀ {l : List (List Char × List Char)},
      (∀ q ∈ l, headIsWhitespace q.2 = true ∧ holdFull q.2 = false) →
      holdLoop orig u l = .error orig := by
  intro l
  induction l with
  | nil => intro _; rfl
  | cons q tl ih =>
    intro hall
    obtain ⟨hw, hf⟩ := hall q (List.mem_cons_self q tl)
    rw [holdLoop_step_not_full hw hf]
    exact ih (fun q' hq' => hall q' (List.mem_cons_of_mem q hq'))

theorem parse_province_no_name {s : List Char} (hne : s ≠ [])
    (hall : ∀ c ∈ s, nameChar c = false) : parse_province s = [(s, [])] := by
  have hlen : 1 ≤ s.length := by
    cases s with
    | nil => exact absurd rfl hne
    | cons c cs => simp
  have hnc : nextCandidate s 0 = some ((s, []), s.length) := by
    unfold nextCandidate
    rw [if_neg (by omega)]
    rw [List.drop_zero, firstIdx_none_of_all hall]
    show nextFrom s s.length = _
    unfold nextFrom
    rw [List.drop_length]
    rfl
  unfold parse_province
  simp only [provinceAux, hnc]
  rw [provinceAux_end (le_refl _)]

theorem parse_unit_space_hyphen {c : Char} {cs : List Char} (hc : c = ' ' ∨ c = '-') :
    parse_unit (c :: cs) = .error (c :: cs) := by
  rcases hc with rfl | rfl <;>
    simp [parse_unit, startsWith, List.isPrefixOf]

theorem parse_hold_order_space_hyphen {s : List Char} (hne : s ≠ [])
    (hall : ∀ c ∈ s, c = ' ' ∨ c = '-') :
    parse_hold_order s = .error s := by
  obtain ⟨c, cs, rfl⟩ := List.exists_cons_of_ne_nil hne
  have hpu : parse_unit (c :: cs) = .error (c :: cs) :=
    parse_unit_space_hyphen (hall c (List.mem_cons_self c cs))
  have hin : holdInput (c :: cs) = (none, trimStart (c :: cs)) := by
    simp [holdInput, optional, hpu, unwrapE]
  rw [parse_hold_order_eq, hin]
  have htmem : ∀ d ∈ trimStart (c :: cs), d = ' ' ∨ d = '-' := fun d hd =>
    hall d (List.IsSuffix.subset (List.dropWhile_suffix _) hd)
  by_cases hte : trimStart (c :: cs) = []
  · rw [hte]
    rfl
  · have hnn : ∀ d ∈ trimStart (c :: cs), nameChar d = false := by
      intro d hd
      rcases htmem d hd with rfl | rfl <;> decide
    rw [parse_province_no_name hte hnn]
    have hre : require_whitespace ([] : List Char) = .error [] := rfl
    simp only [holdLoop, hre]

/-!  Combinator lemmas. -/

theorem chainEmit_eq {α β : Type} (fr : α) :
    ∀ l : List (β × List Char),
      chainEmit fr l = l.map (fun qr => ((fr, qr.1), qr.2)) := by
  intro l
  induction l with
  | nil => rfl
  | cons hd tl ih =>
    obtain ⟨sv, rem⟩ := hd
    simp [chainEmit, ih]

theorem chainRun_eq {α β : Type} (q : ParserF β) :
    ∀ l : List (α × List Char),
      chainRun q l =
        l.flatMap (fun pr => (q pr.2).map (fun qr => ((pr.1, qr.1), qr.2))) := by
  intro l
  induction l with
  | nil => rfl
  | cons hd tl ih =>
    obtain ⟨fr, rem⟩ := hd
    simp [chainRun, chainEmit_eq, ih]

theorem optionalRun_mem {α : Type} {s : List Char} :
    ∀ {l : List (α × List Char)} (v : Option α) (r : List Char),
      (∀ w t, (w, t) ∈ l → t <:+ s) →
      (v, r) ∈ optionalRun s l → r <:+ s := by
  intro l
  induction l with
  | nil =>
    intro v r _ h
    rcases List.mem_singleton.mp h with heq
    cases heq
    exact List.suffix_refl s
  | cons hd tl ih =>
    obtain ⟨w, t⟩ := hd
    intro v r hl h
    simp only [optionalRun] at h
    rcases List.mem_cons.mp h with heq | hmem
    · cases heq
      exact hl w t (List.mem_cons_self _ _)
    · exact ih v r (fun w' t' hh => hl w' t' (List.mem_cons_of_mem _ hh)) hmem

theorem eitherRun_mem {α β : Type} {s : List Char} :
    ∀ {l : List (α × List Char)} {m : List (β × List Char)}
      (v : α ⊕ β) (r : List Char),
      (∀ w t, (w, t) ∈ l → t <:+ s) →
      (∀ w t, (w, t) ∈ m → t <:+ s) →
      (v, r) ∈ eitherRun l m → r <:+ s := by
  intro l
  induction l with
  | nil =>
    intro m
    induction m with
    | nil => intro v r _ _ h; simp [eitherRun] at h
    | cons hd tl ih =>
      obtain ⟨w, t⟩ := hd
      intro v r _ hm h
      simp only [eitherRun] at h
      rcases List.mem_cons.mp h with heq | hmem
      · cases heq
        exact hm w t (List.mem_cons_self _ _)
      · exact ih v r (fun w' t' hh => (List.not_mem_nil _ hh).elim)
          (fun w' t' hh => hm w' t' (List.mem_cons_of_mem _ hh)) hmem
  | cons hd tl ih =>
    obtain ⟨w, t⟩ := hd
    intro m v r hl hm h
    simp only [eitherRun] at h
    rcases List.mem_cons.mp h with heq | hmem
    · cases heq
      exact hl w t (List.mem_cons_self _ _)
    · exact ih v r (fun w' t' hh => hl w' t' (List.mem_cons_of_mem _ hh)) hm hmem

/-!  Delegation lemmas for the support and convoy loops. -/

theorem supLoop_delegates {orig : List Char} {un : Option UnitKind} :
    ∀ {l : List (List Char × List Char)} {u prov u2 src dst rem},
      supLoop orig un l = .ok ((u, prov, u2, src, dst), rem) →
      (∃ t, parse_move_order t = .ok ((u2, src, dst), rem)) ∨
      (src = dst ∧ ∃ t, parse_move_order t = .error t ∧
        parse_hold_order t = .ok ((u2, src), rem)) := by
  intro l
  induction l with
  | nil => intro u prov u2 src dst rem h; cases h
  | cons hd tl ih =>
    intro u prov u2 src dst rem h
    obtain ⟨prov', remainder⟩ := hd
    simp only [supLoop] at h
    cases hks : parse_support (unwrapE (skip_whitespace remainder)) with
    | error e =>
      simp only [hks] at h
      exact ih h
    | ok vr =>
      obtain ⟨v, rem'⟩ := vr
      simp only [hks] at h
      cases hm : parse_move_order (unwrapE (skip_whitespace rem')) with
      | ok mr =>
        obtain ⟨⟨u2', src', dst'⟩, rem''⟩ := mr
        simp only [hm] at h
        cases h
        exact Or.inl ⟨unwrapE (skip_whitespace rem'), hm⟩
      | error e =>
        simp only [hm] at h
        cases hh : parse_hold_order (unwrapE (skip_whitespace rem')) with
        | ok hr =>
          obtain ⟨⟨u2', src'⟩, rem''⟩ := hr
          simp only [hh] at h
          cases h
          refine Or.inr ⟨rfl, unwrapE (skip_whitespace rem'), ?_, hh⟩
          rw [parse_move_order_error hm] at hm
          exact hm
        | error e2 =>
          simp only [hh] at h
          exact ih h

theorem convoyLoop_delegates {orig : List Char} {un : Option UnitKind} :
    ∀ {l : List (List Char × List Char)} {u prov u2 src dst rem},
      convoyLoop orig un l = .ok ((u, prov, u2, src, dst), rem) →
      ∃ t, parse_move_order t = .ok ((u2, src, dst), rem) := by
  intro l
  induction l with
  | nil => intro u prov u2 src dst rem h; cases h
  | cons hd tl ih =>
    intro u prov u2 src dst rem h
    obtain ⟨prov', remainder⟩ := hd
    simp only [convoyLoop] at h
    cases hks : parse_convoy (unwrapE (skip_whitespace remainder)) with
    | error e =>
      simp only [hks] at h
      exact ih h
    | ok vr =>
      obtain ⟨v, rem'⟩ := vr
      simp only [hks] at h
      cases hm : parse_move_order (unwrapE (skip_whitespace rem')) with
      | ok mr =>
        obtain ⟨⟨u2', src', dst'⟩, rem''⟩ := mr
        simp only [hm] at h
        cases h
        exact ⟨unwrapE (skip_whitespace rem'), hm⟩
      | error e =>
        simp only [hm] at h
        exact ih h

/-!  Claim theorems. -/

/-- Claim C1, counterexample.  The claim states that in every one of the four
order rules a recognized unit token must be followed by whitespace or the
whole rule fails outright, and that `parse_hold_order` enforces this exactly
as the other three rules do.  On the input `abrest h`, the unit token `a` is
recognized and the following text `brest h` does not begin with whitespace,
yet `parse_hold_order` succeeds (as army at brest) instead of failing. -/
theorem claim1_counterexample :
    parse_unit ("abrest h".toList) = .ok (.army, "brest h".toList) ∧
    require_whitespace ("brest h".toList) = .error ("brest h".toList) ∧
    parse_hold_order ("abrest h".toList) =
      .ok ((some .army, "brest".toList), []) := by
  refine ⟨by decide, by decide, by decide⟩

/-- Claim C1, amended.  In `parse_move_order`, `parse_support_order` and
`parse_convoy_order`, a recognized unit token whose following text does not
begin with whitespace fails the whole rule outright; `parse_hold_order` does
not enforce this: it keeps the recognized unit, merely trims whitespace, and
proceeds with the candidate search. -/
theorem claim1_amended (s rem : List Char) (u : UnitKind)
    (h : parse_unit s = .ok (u, rem)) (hw : headIsWhitespace rem = false) :
    parse_move_order s = .error s ∧
    parse_support_order s = .error s ∧
    parse_convoy_order s = .error s ∧
    parse_hold_order s = holdLoop s (some u) (parse_province (trimStart rem)) := by
  have hrw : require_whitespace rem = .error rem := by
    unfold require_whitespace
    rw [if_neg (by simp [hw])]
  refine ⟨?_, ?_, ?_, ?_⟩
  · simp only [parse_move_order, h, hrw]
  · simp only [parse_support_order, h, hrw]
  · simp only [parse_convoy_order, h, hrw]
  · simp only [parse_hold_order_eq, holdInput, optional, h, unwrapE]

/-- Claim C1, witness for the amended theorem at the input `a-b`. -/
theorem claim1_amended_witness :
    parse_move_order ("a-b".toList) = .error ("a-b".toList) ∧
    parse_support_order ("a-b".toList) = .error ("a-b".toList) ∧
    parse_convoy_order ("a-b".toList) = .error ("a-b".toList) ∧
    parse_hold_order ("a-b".toList) =
      holdLoop ("a-b".toList) (some .army) (parse_province (trimStart ("-b".toList))) :=
  claim1_amended ("a-b".toList) ("-b".toList) .army (by decide) (by decide)

/-- Claim C2.  For each of the four order rules, a success carries an empty
remaining input, and a failure carries exactly the original input unchanged;
consequently reapplying a rule to its own failure output fails
identically. -/
theorem claim2_consume_or_restore (s : List Char) :
    ((∀ x rem, parse_hold_order s = .ok (x, rem) → rem = []) ∧
     (∀ e, parse_hold_order s = .error e →
        e = s ∧ parse_hold_order e = parse_hold_order s)) ∧
    ((∀ x rem, parse_move_order s = .ok (x, rem) → rem = []) ∧
     (∀ e, parse_move_order s = .error e →
        e = s ∧ parse_move_order e = parse_move_order s)) ∧
    ((∀ x rem, parse_support_order s = .ok (x, rem) → rem = []) ∧
     (∀ e, parse_support_order s = .error e →
        e = s ∧ parse_support_order e = parse_support_order s)) ∧
    ((∀ x rem, parse_convoy_order s = .ok (x, rem) → rem = []) ∧
     (∀ e, parse_convoy_order s = .error e →
        e = s ∧ parse_convoy_order e = parse_convoy_order s)) := by
  refine ⟨⟨?_, ?_⟩, ⟨?_, ?_⟩, ⟨?_, ?_⟩, ⟨?_, ?_⟩⟩
  · intro x rem h; exact parse_hold_order_ok h
  · intro e h
    have he := parse_hold_order_error h
    exact ⟨he, by rw [he]⟩
  · intro x rem h; exact parse_move_order_ok h
  · intro e h
    have he := parse_move_order_error h
    exact ⟨he, by rw [he]⟩
  · intro x rem h; exact parse_support_order_ok h
  · intro e h
    have he := parse_support_order_error h
    exact ⟨he, by rw [he]⟩
  · intro x rem h; exact parse_convoy_order_ok h
  · intro e h
    have he := parse_convoy_order_error h
    exact ⟨he, by rw [he]⟩

/-- Claim C2, witness: the success branch at `a brest h` yields an empty
remainder. -/
theorem claim2_witness : ([] : List Char) = [] :=
  (claim2_consume_or_restore ("a brest h".toList)).1.1
    ((some .army, "brest".toList)) [] (by decide)

/-- Claim C3, counterexample.  The claim states the hold rule fails only
when all candidates are exhausted, never while an untried longer candidate
would still yield a full keyword-terminated parse.  On `x-y h`, the first
candidate is `x` with remainder `-y h`; the remainder does not begin with
whitespace, so the rule aborts with failure, although the later candidate
`x-y` (remainder ` h`) leads to a complete hold parse. -/
theorem claim3_counterexample :
    parse_hold_order ("x-y h".toList) = .error ("x-y h".toList) ∧
    ("x-y".toList, " h".toList) ∈ parse_province ("x-y h".toList) ∧
    holdFull (" h".toList) = true := by
  refine ⟨by decide, by decide, by decide⟩

/-- Claim C3, amended.  `parse_hold_order` scans the candidates in order and
returns the first one leading to a complete keyword-terminated parse, and
fails when every candidate has been exhausted without a full parse, PROVIDED
every candidate examined before the deciding one has a remainder beginning
with whitespace; a candidate whose remainder does not begin with whitespace
makes the rule fail immediately, abandoning all untried candidates. -/
theorem claim3_amended (s : List Char) (u : Option UnitKind) (r : List Char)
    (hin : holdInput s = (u, r)) :
    (∀ l₁ pr l₂, parse_province r = l₁ ++ pr :: l₂ →
       (∀ q ∈ l₁, headIsWhitespace q.2 = true ∧ holdFull q.2 = false) →
       holdFull pr.2 = true →
       parse_hold_order s = .ok ((u, pr.1), [])) ∧
    (∀ l₁ pr l₂, parse_province r = l₁ ++ pr :: l₂ →
       (∀ q ∈ l₁, holdFull q.2 = false) →
       headIsWhitespace pr.2 = false →
       parse_hold_order s = .error s) ∧
    ((∀ q ∈ parse_province r, headIsWhitespace q.2 = true ∧ holdFull q.2 = false) →
       parse_hold_order s = .error s) := by
  have heq : parse_hold_order s = holdLoop s u (parse_province r) := by
    rw [parse_hold_order_eq, hin]
  refine ⟨?_, ?_, ?_⟩
  · intro l₁ pr l₂ hdec hall hfull
    rw [heq, hdec]
    exact holdLoop_first_success hall hfull
  · intro l₁ pr l₂ hdec hall hw
    rw [heq, hdec]
    exact holdLoop_abort hall hw
  · intro hall
    rw [heq]
    exact holdLoop_exhaust hall

/-- Claim C3, witness for the amended theorem: on `a brest h` the first
candidate `brest` already gives a full hold parse. -/
theorem claim3_amended_witness :
    parse_hold_order ("a brest h".toList) =
      .ok ((some UnitKind.army, "brest".toList), []) :=
  (claim3_amended ("a brest h".toList) (some .army) ("brest h".toList)
      (by decide)).1
    [] ("brest".toList, " h".toList) [("brest h".toList, [])]
    (by decide) (by simp) (by decide)

/-- Claim C4, counterexample.  The claim states that on a non-empty input
with no alphabetic run the enumerator yields the empty sequence.  On the
input `-` it instead yields exactly one pair: the whole input with empty
remainder. -/
theorem claim4_counterexample :
    parse_province ("-".toList) = [("-".toList, [])] ∧
    ("-".toList : List Char) ≠ [] := by
  refine ⟨by decide, by decide⟩

/-- Claim C4, amended.  On a non-empty input containing no name character,
`parse_province` yields exactly one candidate, the whole input paired with
the empty remainder (not the empty sequence); the calling hold rule still
fails on such text, because the empty remainder cannot begin with
whitespace. -/
theorem claim4_amended :
    (∀ s : List Char, s ≠ [] → (∀ c ∈ s, nameChar c = false) →
        parse_province s = [(s, [])]) ∧
    (∀ s : List Char, s ≠ [] → (∀ c ∈ s, c = ' ' ∨ c = '-') →
        parse_hold_order s = .error s) := by
  exact ⟨fun s hne hall => parse_province_no_name hne hall,
         fun s hne hall => parse_hold_order_space_hyphen hne hall⟩

/-- Claim C4, witness for the amended theorem at `-` and ` -`. -/
theorem claim4_amended_witness :
    parse_province ("-".toList) = [("-".toList, [])] ∧
    parse_hold_order (" -".toList) = .error (" -".toList) :=
  ⟨claim4_amended.1 ("-".toList) (by decide) (by decide),
   claim4_amended.2 (" -".toList) (by decide) (by decide)⟩

/-- Claim C5.  The boundary enumeration over `Eastern Mediterranean Sea `
(with trailing space) yields exactly the three stated pairs in order, and in
general the candidate sequence of `parse_province` is a finite list ordered
strictly shortest-name-first. -/
theorem claim5_enumeration :
    parse_province ("Eastern Mediterranean Sea ".toList) =
      [("Eastern".toList, " Mediterranean Sea ".toList),
       ("Eastern Mediterranean".toList, " Sea ".toList),
       ("Eastern Mediterranean Sea".toList, " ".toList)] ∧
    ∀ s : List Char,
      (parse_province s).Pairwise (fun a b => a.1.length < b.1.length) :=
  ⟨by decide, fun s => provinceAux_pairwise s _ _⟩

/-- Claim C6.  A support success always comes from delegating to
`parse_move_order` on the text after the keyword, or, only when that very
delegation fails, from `parse_hold_order`, in which case the supported
source equals the supported destination; concretely, `a brest s a paris h`
parses with supported source and destination both `paris`. -/
theorem claim6_support_delegation :
    (∀ s u prov u2 src dst rem,
        parse_support_order s = .ok ((u, prov, u2, src, dst), rem) →
        (∃ t, parse_move_order t = .ok ((u2, src, dst), rem)) ∨
        (src = dst ∧ ∃ t, parse_move_order t = .error t ∧
            parse_hold_order t = .ok ((u2, src), rem))) ∧
    parse_support_order ("a brest s a paris h".toList) =
      .ok ((some .army, "brest".toList, some .army,
            "paris".toList, "paris".toList), []) := by
  constructor
  · intro s u prov u2 src dst rem h
    unfold parse_support_order at h
    split at h
    · split at h
      · exact supLoop_delegates h
      · cases h
    · exact supLoop_delegates h
  · decide

/-- Claim C6, witness applying the delegation theorem at
`a brest s a paris h`. -/
theorem claim6_witness :
    (∃ t, parse_move_order t =
        .ok ((some UnitKind.army, "paris".toList, "paris".toList), [])) ∨
    ("paris".toList = "paris".toList ∧
      ∃ t, parse_move_order t = .error t ∧
        parse_hold_order t = .ok ((some UnitKind.army, "paris".toList), [])) :=
  claim6_support_delegation.1 ("a brest s a paris h".toList)
    (some .army) ("brest".toList) (some .army) ("paris".toList) ("paris".toList) []
    (by decide)

/-- Claim C7.  A convoy success always comes from delegating to
`parse_move_order`, never to `parse_hold_order`; concretely, on
`f brest c paris h` the text after the convoy keyword (`paris h`) parses as
a hold but not as a move, and the convoy rule fails returning the original
input. -/
theorem claim7_convoy_delegation :
    (∀ s u prov u2 src dst rem,
        parse_convoy_order s = .ok ((u, prov, u2, src, dst), rem) →
        ∃ t, parse_move_order t = .ok ((u2, src, dst), rem)) ∧
    parse_hold_order ("paris h".toList) = .ok ((none, "paris".toList), []) ∧
    parse_move_order ("paris h".toList) = .error ("paris h".toList) ∧
    parse_convoy_order ("f brest c paris h".toList) =
      .error ("f brest c paris h".toList) := by
  refine ⟨?_, by decide, by decide, by decide⟩
  intro s u prov u2 src dst rem h
  unfold parse_convoy_order at h
  split at h
  · split at h
    · exact convoyLoop_delegates h
    · cases h
  · exact convoyLoop_delegates h

/-- Claim C7, witness applying the delegation theorem at
`f brest convoys paris-burgundy`. -/
theorem claim7_witness :
    ∃ t, parse_move_order t =
      .ok ((none, "paris".toList, "burgundy".toList), []) :=
  claim7_convoy_delegation.1 ("f brest convoys paris-burgundy".toList)
    (some .fleet) ("brest".toList) none ("paris".toList) ("burgundy".toList) []
    (by decide)

/-- Claim C8.  `chain(P,Q)` yields, for each result `(p, r)` of `P` in
order, every result of `Q` on `r` paired as `((p, q), remainder)`; hence its
result count is the sum over the results of `P` of the result counts of `Q`
on the corresponding remainders.  (That `Q` runs per `P` result is visible
in `chainRun`, which invokes `second` once for each first-parser result.) -/
theorem claim8_chain {α β : Type} (p : ParserF α) (q : ParserF β) (s : List Char) :
    chainP p q s =
      (p s).flatMap (fun pr => (q pr.2).map (fun qr => ((pr.1, qr.1), qr.2))) ∧
    (chainP p q s).length =
      ((p s).map (fun pr => (q pr.2).length)).sum := by
  constructor
  · exact chainRun_eq q (p s)
  · have hlen : ∀ l : List (α × List Char),
        (chainRun q l).length = (l.map (fun pr => (q pr.2).length)).sum := by
      intro l
      induction l with
      | nil => rfl
      | cons hd tl ih =>
        obtain ⟨fr, rem⟩ := hd
        simp [chainRun, chainEmit_eq, ih]
    exact hlen (p s)

/-- Claim C9.  Every combinator stage (tag, optional, either, chain) yields
only remainders that are suffixes of its input (given that its sub-parsers
do), every `parse_province` candidate satisfies name ++ remainder = input
(hence the remainder is a suffix), and every order-rule success has a
remainder that is a suffix of its input. -/
theorem claim9_suffix :
    (∀ (t s v r : List Char), (v, r) ∈ tagP t s → r <:+ s) ∧
    (∀ (α : Type) (p : ParserF α) (s : List Char),
        (∀ v r, (v, r) ∈ p s → r <:+ s) →
        ∀ v r, (v, r) ∈ optionalP p s → r <:+ s) ∧
    (∀ (α β : Type) (p : ParserF α) (q : ParserF β) (s : List Char),
        (∀ v r, (v, r) ∈ p s → r <:+ s) →
        (∀ v r, (v, r) ∈ q s → r <:+ s) →
        ∀ v r, (v, r) ∈ eitherP p q s → r <:+ s) ∧
    (∀ (α β : Type) (p : ParserF α) (q : ParserF β) (s : List Char),
        (∀ v r, (v, r) ∈ p s → r <:+ s) →
        (∀ s2 v r, (v, r) ∈ q s2 → r <:+ s2) →
        ∀ v r, (v, r) ∈ chainP p q s → r <:+ s) ∧
    (∀ s n r : List Char, (n, r) ∈ parse_province s → n ++ r = s ∧ r <:+ s) ∧
    (∀ (s : List Char) x r, parse_hold_order s = .ok (x, r) → r <:+ s) ∧
    (∀ (s : List Char) x r, parse_move_order s = .ok (x, r) → r <:+ s) ∧
    (∀ (s : List Char) x r, parse_support_order s = .ok (x, r) → r <:+ s) ∧
    (∀ (s : List Char) x r, parse_convoy_order s = .ok (x, r) → r <:+ s) := by
  refine ⟨?_, ?_, ?_, ?_, ?_, ?_, ?_, ?_, ?_⟩
  · intro t s v r h
    unfold tagP at h
    split at h
    · cases List.mem_singleton.mp h
      exact List.drop_suffix _ _
    · cases h
  · intro α p s hp v r h
    exact optionalRun_mem v r hp h
  · intro α β p q s hp hq v r h
    exact eitherRun_mem v r hp hq h
  · intro α β p q s hp hq v r h
    have h' : (v, r) ∈
        (p s).flatMap (fun pr => (q pr.2).map (fun qr => ((pr.1, qr.1), qr.2))) := by
      rw [← chainRun_eq]
      exact h
    obtain ⟨pr, hpr, hmem⟩ := List.mem_flatMap.mp h'
    obtain ⟨p1, p2⟩ := pr
    obtain ⟨qr, hqr, heq⟩ := List.mem_map.mp hmem
    obtain ⟨q1, q2⟩ := qr
    cases heq
    exact (hq p2 q1 q2 hqr).trans (hp p1 p2 hpr)
  · intro s n r h
    have := provinceAux_mem h
    exact ⟨this.2.1, this.2.2⟩
  · intro s x r h
    rw [parse_hold_order_ok h]
    exact List.nil_suffix
  · intro s x r h
    rw [parse_move_order_ok h]
    exact List.nil_suffix
  · intro s x r h
    rw [parse_support_order_ok h]
    exact List.nil_suffix
  · intro s x r h
    rw [parse_convoy_order_ok h]
    exact List.nil_suffix

/-- Claim C9, witness: the tag stage at a concrete input. -/
theorem claim9_witness : ([] : List Char) <:+ ("ab".toList) :=
  claim9_suffix.1 ("ab".toList) ("ab".toList) ("ab".toList) [] (by decide)

/-- Claim C10.  The optional combinator of mod.rs and `skip_whitespace`
have the uninhabited error type, so they return a success on every input
(their unwraps can never fail), and every one of the four order rules is a
total function yielding, for every input, either its failure value carrying
the input or a success. -/
theorem claim10_totality :
    (∀ (α : Type) (p : List Char → Except (List Char) (α × List Char))
        (s : List Char), ∃ vr, optional p s = .ok vr) ∧
    (∀ s : List Char, ∃ r, skip_whitespace s = .ok r) ∧
    (∀ s : List Char,
        parse_hold_order s = .error s ∨ ∃ v, parse_hold_order s = .ok v) ∧
    (∀ s : List Char,
        parse_move_order s = .error s ∨ ∃ v, parse_move_order s = .ok v) ∧
    (∀ s : List Char,
        parse_support_order s = .error s ∨ ∃ v, parse_support_order s = .ok v) ∧
    (∀ s : List Char,
        parse_convoy_order s = .error s ∨ ∃ v, parse_convoy_order s = .ok v) := by
  refine ⟨?_, ?_, ?_, ?_, ?_, ?_⟩
  · intro α p s
    unfold optional
    cases p s with
    | ok vr =>
      obtain ⟨v, rem⟩ := vr
      exact ⟨(some v, rem), rfl⟩
    | error rem => exact ⟨(none, rem), rfl⟩
  · intro s
    exact ⟨trimStart s, rfl⟩
  · intro s
    cases h : parse_hold_order s with
    | error e =>
      have he := parse_hold_order_error h
      exact Or.inl (by rw [he])
    | ok v => exact Or.inr ⟨v, rfl⟩
  · intro s
    cases h : parse_move_order s with
    | error e =>
      have he := parse_move_order_error h
      exact Or.inl (by rw [he])
    | ok v => exact Or.inr ⟨v, rfl⟩
  · intro s
    cases h : parse_support_order s with
    | error e =>
      have he := parse_support_order_error h
      exact Or.inl (by rw [he])
    | ok v => exact Or.inr ⟨v, rfl⟩
  · intro s
    cases h : parse_convoy_order s with
    | error e =>
      have he := parse_convoy_order_error h
      exact Or.inl (by rw [he])
    | ok v => exact Or.inr ⟨v, rfl⟩

end Dipboy
